import Mathlib

/-!
Shallow embedding of the IRV tally engine of the rcv-polls repository
(`calculateIRV`). The embedding follows the engine variant whose behaviour
the repository's own test suite pins down (majority check gated to rounds
with more than two remaining options, direct two-option comparison, and the
lowest-identifier tie-break for a complete tie among three or more options);
an earlier copy of the function without the gate also ships in the tree.

JavaScript features are modelled as follows: machine numbers that stay
integral are `Nat`/`Int`; the float `percentages` are idealized as `ℚ`;
`undefined` for an optional field is `Option.none`; the stable
`Array.prototype.sort` with comparator `(a, b) => a.rank - b.rank` is a
stable insertion sort on the rank key; the `while` loop is a fuel-indexed
recursion where the caller supplies more fuel than the loop can consume
(each iteration removes at least one remaining option).
-/

namespace RcvPolls

/-- Poll option as consumed by the engine: `{ id, text }`. -/
structure Opt where
  id : Nat
  text : String
deriving DecidableEq, Repr

/-- One entry of `ballot.rankings` before normalization. `pollOption` models
the nested option reference (`some i` when the ranking carries a nested
object whose `id` is `i`); `pollOptionId` models the direct id field; either
may be absent (`none` is JS `undefined`). -/
structure Ranking where
  pollOption : Option Nat
  pollOptionId : Option Nat
  rank : Int
deriving DecidableEq, Repr

/-- A ballot: `{ id, rankings }`. -/
structure Ballot where
  id : Nat
  rankings : List Ranking
deriving DecidableEq, Repr

/-- Normalized ranking: `{ pollOptionId: r.pollOption?.id || r.pollOptionId, rank: r.rank }`.
The id is still `Option`-valued because the JS expression can produce
`undefined` (both references absent, or a falsy zero nested id with an
absent direct field). -/
structure NormRanking where
  pollOptionId : Option Nat
  rank : Int
deriving DecidableEq, Repr

/-- A normalized ballot. -/
structure NormBallot where
  id : Nat
  rankings : List NormRanking
deriving DecidableEq, Repr

/-- JS `nested?.id || direct`: both `undefined` and `0` are falsy, so a
nested id of `0` falls through to the direct field (returned as-is). -/
def resolveRef (nested direct : Option Nat) : Option Nat :=
  match nested with
  | some n => if n = 0 then direct else some n
  | none => direct

/-- Stable insertion of one ranking into a rank-sorted list: one step of
`[...ballot.rankings].sort((a, b) => a.rank - b.rank)` (ascending, stable). -/
def insertByRank (r : Ranking) : List Ranking → List Ranking
  | [] => [r]
  | x :: xs => if x.rank < r.rank then x :: insertByRank r xs else r :: x :: xs

/-- Stable ascending sort of a ballot's rankings by their `rank` key. -/
def sortByRank : List Ranking → List Ranking
  | [] => []
  | x :: xs => insertByRank x (sortByRank xs)

/-- `{ pollOptionId: r.pollOption?.id || r.pollOptionId, rank: r.rank }`. -/
def normalizeRanking (r : Ranking) : NormRanking :=
  { pollOptionId := resolveRef r.pollOption r.pollOptionId, rank := r.rank }

/-- Ballot normalization: sort the rankings by ascending rank, then resolve
each option reference to a bare id. -/
def normalizeBallot (b : Ballot) : NormBallot :=
  { id := b.id, rankings := (sortByRank b.rankings).map normalizeRanking }

/-- The highest-ranked option of a normalized ballot that is still in the
race: scan the (rank-sorted) rankings and return the first id that belongs
to `remainingIds`; rankings that resolved to `undefined` or to an
already-eliminated id are skipped. `none` means the ballot casts no vote
this round. -/
def firstPref (remainingIds : List Nat) : List NormRanking → Option Nat
  | [] => none
  | r :: rs =>
    match r.pollOptionId with
    | some oid => if oid ∈ remainingIds then some oid else firstPref remainingIds rs
    | none => firstPref remainingIds rs

/-- Votes credited to option `oid` in a round with the given remaining ids:
the number of ballots whose first still-remaining choice is `oid`. -/
def voteCount (remainingIds : List Nat) (nbs : List NormBallot) (oid : Nat) : Nat :=
  nbs.countP fun b => decide (firstPref remainingIds b.rankings = some oid)

/-- The `voteCounts` record of a round, keyed in remaining-option order. -/
def mkVoteCounts (ids : List Nat) (cnt : Nat → Nat) : List (Nat × Nat) :=
  ids.map fun i => (i, cnt i)

/-- The `percentages` record: `totalVotes > 0 ? count / totalVotes * 100 : 0`. -/
def mkPercentages (totalVotes : Nat) (ids : List Nat) (cnt : Nat → Nat) : List (Nat × ℚ) :=
  ids.map fun i => (i, if 0 < totalVotes then (cnt i : ℚ) / (totalVotes : ℚ) * 100 else 0)

/-- `Math.min(...voteValues)`; the empty case is unreachable at the call
site because at least two options remain there. -/
def jsMin : List Nat → Nat
  | [] => 0
  | x :: xs => xs.foldl min x

/-- The reduce callback `(lowest, current) => current.id < lowest.id ? current : lowest`. -/
def pickLower (lowest cur : Opt) : Opt :=
  if cur.id < lowest.id then cur else lowest

/-- `minVoteOptions.reduce((lowest, current) => current.id < lowest.id ? current : lowest)`:
`none` models the TypeError a reduce of an empty array would throw. -/
def reduceLowest : List Opt → Option Opt
  | [] => none
  | x :: xs => some (xs.foldl pickLower x)

/-- One recorded elimination round. Fields the source leaves out of a given
round object (`majorityWinner`, `eliminatedMultiple`, `tie`) are `none`
respectively `false` when absent. -/
structure Round where
  round : Nat
  voteCounts : List (Nat × Nat)
  percentages : List (Nat × ℚ)
  eliminated : Option Opt
  eliminatedMultiple : Option (List Opt)
  remaining : List Nat
  majorityWinner : Option Nat
  tie : Bool
deriving DecidableEq, Repr

/-- The engine's result object. `totalVotes` and `majorityThreshold` are
`Option`-valued because the two precondition error returns omit them. -/
structure TallyResult where
  rounds : List Round
  winner : Option Opt
  tie : Bool
  tiedOptions : Option (List Opt)
  totalVotes : Option Nat
  majorityThreshold : Option Nat
  error : Option String
deriving DecidableEq, Repr

/-- The `while (remainingOptions.length > 1)` loop of `calculateIRV`,
fuel-indexed. `calculateIRV` supplies fuel strictly greater than the number
of remaining options, which the loop can never exhaust since every
iteration that recurses removes at least one option. -/
def irvLoop (nbs : List NormBallot) (totalVotes thr : Nat) :
    Nat → List Opt → List Round → TallyResult
  | 0, _, rounds =>
    -- fuel exhaustion marker; unreachable from `calculateIRV`
    { rounds := rounds
      winner := none
      tie := false
      tiedOptions := none
      totalVotes := none
      majorityThreshold := none
      error := some "out of fuel" }
  | _ + 1, [], rounds =>
    -- the loop guard fails; `remainingOptions[0]` is undefined
    { rounds := rounds
      winner := none
      tie := false
      tiedOptions := none
      totalVotes := some totalVotes
      majorityThreshold := some thr
      error := none }
  | _ + 1, [o], rounds =>
    -- the loop guard fails; the last remaining option wins
    { rounds := rounds
      winner := some o
      tie := false
      tiedOptions := none
      totalVotes := some totalVotes
      majorityThreshold := some thr
      error := none }
  | fuel + 1, o1 :: o2 :: rest, rounds =>
    let remaining := o1 :: o2 :: rest
    let ids := remaining.map (·.id)
    let cnt := voteCount ids nbs
    let vc := mkVoteCounts ids cnt
    let pc := mkPercentages totalVotes ids cnt
    -- majority check, only evaluated with more than two remaining options
    let mw := if 2 < remaining.length then
        remaining.find? fun o => decide (thr ≤ cnt o.id)
      else none
    match mw with
    | some w =>
      let r : Round := { round := rounds.length + 1
                         voteCounts := vc
                         percentages := pc
                         eliminated := none
                         eliminatedMultiple := none
                         remaining := ids
                         majorityWinner := some w.id
                         tie := false }
      { rounds := rounds ++ [r]
        winner := some w
        tie := false
        tiedOptions := none
        totalVotes := some totalVotes
        majorityThreshold := some thr
        error := none }
    | none =>
      if remaining.length = 2 then
        -- two options left: the one with fewer votes loses
        if cnt o1.id = cnt o2.id then
          let r : Round := { round := rounds.length + 1
                             voteCounts := vc
                             percentages := pc
                             eliminated := none
                             eliminatedMultiple := none
                             remaining := ids
                             majorityWinner := none
                             tie := true }
          { rounds := rounds ++ [r]
            winner := none
            tie := true
            tiedOptions := some remaining
            totalVotes := some totalVotes
            majorityThreshold := some thr
            error := none }
        else
          let minV := min (cnt o1.id) (cnt o2.id)
          -- first remaining option holding the minimum count
          let elim := if cnt o1.id = minV then o1 else o2
          -- first remaining option whose id differs from the eliminated one
          let w := if o1.id ≠ elim.id then o1 else o2
          let r : Round := { round := rounds.length + 1
                             voteCounts := vc
                             percentages := pc
                             eliminated := some elim
                             eliminatedMultiple := none
                             remaining := ids
                             majorityWinner := none
                             tie := false }
          { rounds := rounds ++ [r]
            winner := some w
            tie := false
            tiedOptions := none
            totalVotes := some totalVotes
            majorityThreshold := some thr
            error := none }
      else
        let voteValues := ids.map cnt
        let minV := jsMin voteValues
        let minOpts := remaining.filter fun o => decide (cnt o.id = minV)
        let allSame := voteValues.all fun c => decide (c = minV)
        if allSame ∧ 2 < remaining.length then
          -- complete tie among 3+ options: eliminate the lowest id and continue
          match reduceLowest minOpts with
          | none =>
            -- a reduce of an empty array would throw; unreachable since
            -- `allSame` makes `minOpts` the whole remaining list
            { rounds := rounds
              winner := none
              tie := false
              tiedOptions := none
              totalVotes := some totalVotes
              majorityThreshold := some thr
              error := some "TypeError: Reduce of empty array with no initial value" }
          | some lo =>
            let r : Round := { round := rounds.length + 1
                               voteCounts := vc
                               percentages := pc
                               eliminated := some lo
                               eliminatedMultiple := none
                               remaining := ids
                               majorityWinner := none
                               tie := false }
            irvLoop nbs totalVotes thr fuel
              (remaining.filter fun o => decide (o.id ≠ lo.id)) (rounds ++ [r])
        else if remaining.length = 2 ∧ allSame then
          -- dead code in the source: a two-option state already returned above
          let r : Round := { round := rounds.length + 1
                             voteCounts := vc
                             percentages := pc
                             eliminated := none
                             eliminatedMultiple := none
                             remaining := ids
                             majorityWinner := none
                             tie := true }
          { rounds := rounds ++ [r]
            winner := none
            tie := true
            tiedOptions := some remaining
            totalVotes := some totalVotes
            majorityThreshold := some thr
            error := none }
        else
          -- eliminate every option at the minimum count (`minVoteOptions` is
          -- nonempty, so the source's `length > 1 ? all : [first]` is just it)
          let elimOpts := minOpts
          let elimIds := elimOpts.map (·.id)
          let remaining' := remaining.filter fun o => !(decide (o.id ∈ elimIds))
          let r : Round := { round := rounds.length + 1
                             voteCounts := vc
                             percentages := pc
                             eliminated := if elimOpts.length = 1 then elimOpts.head? else none
                             eliminatedMultiple := if 1 < elimOpts.length then some elimOpts else none
                             remaining := ids
                             majorityWinner := none
                             tie := false }
          let rounds' := rounds ++ [r]
          if remaining'.isEmpty then
            { rounds := rounds'
              winner := none
              tie := false
              tiedOptions := none
              totalVotes := some totalVotes
              majorityThreshold := some thr
              error := some "All options eliminated - no winner" }
          else
            irvLoop nbs totalVotes thr fuel remaining' rounds'

/-- The engine: `calculateIRV(options, ballots)`. -/
def calculateIRV (options : List Opt) (ballots : List Ballot) : TallyResult :=
  if options.isEmpty then
    { rounds := []
      winner := none
      tie := false
      tiedOptions := none
      totalVotes := none
      majorityThreshold := none
      error := some "No options available" }
  else if ballots.isEmpty then
    { rounds := []
      winner := none
      tie := false
      tiedOptions := none
      totalVotes := none
      majorityThreshold := none
      error := some "No ballots available" }
  else
    let remainingOptions := options.map fun o => { id := o.id, text := o.text : Opt }
    let normalizedBallots := ballots.map normalizeBallot
    let totalVotes := normalizedBallots.length
    let thr := totalVotes / 2 + 1
    irvLoop normalizedBallots totalVotes thr (remainingOptions.length + 1) remainingOptions []

/-- Representation swap used by the round-trip claim: rewrite a ranking's
direct id reference into the nested option-reference form carrying the same
identifier. -/
def toNestedRanking (r : Ranking) : Ranking :=
  { pollOption := r.pollOptionId, pollOptionId := none, rank := r.rank }

/-- Representation swap in the other direction: nested reference to direct id. -/
def toDirectRanking (r : Ranking) : Ranking :=
  { pollOption := none, pollOptionId := r.pollOption, rank := r.rank }

/-- Apply a ranking rewrite to every ranking of a ballot. -/
def mapRankings (f : Ranking → Ranking) (b : Ballot) : Ballot :=
  { id := b.id, rankings := b.rankings.map f }

/-! ### Concrete inputs used to exercise the theorems -/

/-- A ranking in the direct representation (`pollOptionId` only). -/
def dRank (i : Nat) (k : Int) : Ranking :=
  { pollOption := none, pollOptionId := some i, rank := k }

/-- A ranking in the nested representation (`pollOption` only). -/
def nRank (i : Nat) (k : Int) : Ranking :=
  { pollOption := some i, pollOptionId := none, rank := k }

/-- A ballot listing direct rankings as `(optionId, rank)` pairs. -/
def dBallot (bid : Nat) (l : List (Nat × Int)) : Ballot :=
  { id := bid, rankings := l.map fun p => dRank p.1 p.2 }

/-- An already-normalized ballot from `(optionId, rank)` pairs. -/
def nbBallot (bid : Nat) (l : List (Nat × Int)) : NormBallot :=
  { id := bid, rankings := l.map fun p => { pollOptionId := some p.1, rank := p.2 } }

/-- Scenario C options: A, B, C with ids 1, 2, 3. -/
def scOptions : List Opt := [⟨1, "A"⟩, ⟨2, "B"⟩, ⟨3, "C"⟩]

/-- Scenario C ballots: first-choice counts A:2, B:1, C:1. -/
def scBallots : List Ballot :=
  [dBallot 1 [(1, 1)], dBallot 2 [(1, 1)], dBallot 3 [(2, 1)], dBallot 4 [(3, 1)]]

/-- Two options in ascending id order. -/
def p8Options : List Opt := [⟨1, "A"⟩, ⟨2, "B"⟩]

/-- The same two options in the opposite row order. -/
def q8Options : List Opt := [⟨2, "B"⟩, ⟨1, "A"⟩]

/-- Three ballots preferring A over B twice and B over A once. -/
def w8Ballots : List Ballot :=
  [dBallot 1 [(1, 1), (2, 2)], dBallot 2 [(1, 1), (2, 2)], dBallot 3 [(2, 1), (1, 2)]]

/-- The same ballots with the first two rows exchanged. -/
def w8BallotsSwapped : List Ballot :=
  [dBallot 2 [(1, 1), (2, 2)], dBallot 1 [(1, 1), (2, 2)], dBallot 3 [(2, 1), (1, 2)]]

/-- Options whose first id is the falsy value 0. -/
def z9Options : List Opt := [⟨0, "A"⟩, ⟨1, "B"⟩]

/-- One ballot ranking option 0 first, in the direct representation. -/
def z9Direct : List Ballot := [dBallot 1 [(0, 1), (1, 2)]]

/-- The same ballot with every ranking moved to the nested representation. -/
def z9Nested : List Ballot := [mapRankings toNestedRanking (dBallot 1 [(0, 1), (1, 2)])]

/-- Two options and two ballots split one vote each. -/
def t5Options : List Opt := [⟨1, "A"⟩, ⟨2, "B"⟩]

/-- Ballots producing a 1-1 two-option tie. -/
def t5Ballots : List Ballot := [dBallot 1 [(1, 1), (2, 2)], dBallot 2 [(2, 1), (1, 2)]]

/-- Normalized ballots giving counts A:2, B:1 over options 1 and 2. -/
def w1Nbs : List NormBallot :=
  [nbBallot 1 [(1, 1), (2, 2)], nbBallot 2 [(1, 1), (2, 2)], nbBallot 3 [(2, 1), (1, 2)]]

/-- Normalized ballots giving each of the options 1, 2, 3 exactly one vote. -/
def w2Nbs : List NormBallot :=
  [nbBallot 1 [(1, 1), (2, 2), (3, 3)], nbBallot 2 [(2, 1), (3, 2), (1, 3)],
   nbBallot 3 [(3, 1), (1, 2), (2, 3)]]

/-- Normalized ballots where option 1 holds three of five first choices. -/
def w10Nbs : List NormBallot :=
  [nbBallot 1 [(1, 1)], nbBallot 2 [(1, 1)], nbBallot 3 [(1, 1)],
   nbBallot 4 [(2, 1)], nbBallot 5 [(3, 1)]]

/-- Three distinct options for the loop-level statements. -/
def w2Options : List Opt := [⟨1, "A"⟩, ⟨2, "B"⟩, ⟨3, "C"⟩]

/-! ### Lemmas about the counting primitives -/

theorem firstPref_mem {ids : List Nat} {i : Nat} :
    ∀ {rs : List NormRanking}, firstPref ids rs = some i → i ∈ ids := by
  intro rs
  induction rs with
  | nil => intro h; simp [firstPref] at h
  | cons r rs ih =>
    intro h
    simp only [firstPref] at h
    split at h
    next oid heq =>
      by_cases hm : oid ∈ ids
      · rw [if_pos hm] at h
        cases h
        exact hm
      · rw [if_neg hm] at h
        exact ih h
    next heq => exact ih h

theorem sum_map_ite_eq_one {ids : List Nat} {j : Nat} (hnd : ids.Nodup) (hj : j ∈ ids) :
    (ids.map fun i => if j = i then 1 else 0).sum = 1 := by
  induction ids with
  | nil => cases hj
  | cons i0 rest ih =>
    rw [List.nodup_cons] at hnd
    rcases List.mem_cons.mp hj with h0 | hrest
    · subst h0
      have hz : ((rest.map fun i => if j = i then 1 else 0)).sum = 0 := by
        apply List.sum_eq_zero
        intro x hx
        rcases List.mem_map.mp hx with ⟨i, hi, hxi⟩
        have : j ≠ i := fun he => hnd.1 (he ▸ hi)
        simp [← hxi, this]
      simp [hz]
    · have : j ≠ i0 := fun he => hnd.1 (he ▸ hrest)
      simp [this, ih hnd.2 hrest]

theorem sum_countP_first {ids : List Nat} {nbs : List NormBallot}
    (f : NormBallot → Option Nat) (hnd : ids.Nodup)
    (hf : ∀ b i, f b = some i → i ∈ ids) :
    (ids.map fun i => nbs.countP fun b => decide (f b = some i)).sum
      = nbs.countP fun b => (f b).isSome := by
  induction nbs with
  | nil => simp [List.countP_nil]
  | cons b bs ih =>
    have hsplit :
        (ids.map fun i => (b :: bs).countP fun x => decide (f x = some i))
          = ids.map fun i =>
              (bs.countP fun x => decide (f x = some i)) + (if f b = some i then 1 else 0) := by
      apply List.map_congr_left
      intro i _
      rw [List.countP_cons]
      simp
    rw [hsplit, List.sum_map_add, ih, List.countP_cons]
    congr 1
    cases hb : f b with
    | none =>
      have : (ids.map fun i => if f b = some i then 1 else 0).sum = 0 := by
        apply List.sum_eq_zero
        intro x hx
        rcases List.mem_map.mp hx with ⟨i, _, hxi⟩
        simp [← hxi, hb]
      simp [this, hb]
    | some j =>
      have hmem : j ∈ ids := hf b j hb
      simpa [Option.some.injEq] using sum_map_ite_eq_one hnd hmem

/-- The per-round counting identity: with distinct remaining ids, the counts
over all remaining options sum to the number of ballots that still carry a
remaining ranked option. -/
theorem sum_voteCount (ids : List Nat) (nbs : List NormBallot) (hnd : ids.Nodup) :
    (ids.map (voteCount ids nbs)).sum
      = nbs.countP fun b => (firstPref ids b.rankings).isSome := by
  have := @sum_countP_first ids nbs
    (fun b => firstPref ids b.rankings) hnd (fun _ _ h => firstPref_mem h)
  simpa [voteCount] using this

theorem foldl_min_mem : ∀ (xs : List Nat) (x : Nat), xs.foldl min x ∈ x :: xs := by
  intro xs
  induction xs with
  | nil => intro x; simp
  | cons y ys ih =>
    intro x
    rw [List.foldl_cons]
    have h := ih (min x y)
    rcases List.mem_cons.mp h with h0 | h1
    · rw [h0]
      rcases Nat.le_total x y with hle | hle
      · simp [min_eq_left hle]
      · simp [min_eq_right hle]
    · exact List.mem_cons.mpr (Or.inr (List.mem_cons.mpr (Or.inr h1)))

theorem jsMin_mem {x : Nat} {xs : List Nat} : jsMin (x :: xs) ∈ x :: xs := by
  simpa [jsMin] using foldl_min_mem xs x

theorem pickLower_le_left (x y : Opt) : (pickLower x y).id ≤ x.id := by
  unfold pickLower
  by_cases h : y.id < x.id <;> simp [h] <;> omega

theorem pickLower_le_right (x y : Opt) : (pickLower x y).id ≤ y.id := by
  unfold pickLower
  by_cases h : y.id < x.id <;> simp [h] <;> omega

theorem pickLower_eq_or (x y : Opt) : pickLower x y = x ∨ pickLower x y = y := by
  unfold pickLower
  by_cases h : y.id < x.id <;> simp [h]

theorem foldl_pickLower_mem : ∀ (xs : List Opt) (x : Opt), xs.foldl pickLower x ∈ x :: xs := by
  intro xs
  induction xs with
  | nil => intro x; simp
  | cons y ys ih =>
    intro x
    rw [List.foldl_cons]
    have h := ih (pickLower x y)
    rcases List.mem_cons.mp h with h0 | h1
    · rw [h0]
      rcases pickLower_eq_or x y with h2 | h2 <;> simp [h2]
    · exact List.mem_cons.mpr (Or.inr (List.mem_cons.mpr (Or.inr h1)))

theorem foldl_pickLower_le : ∀ (xs : List Opt) (x : Opt),
    (xs.foldl pickLower x).id ≤ x.id ∧ ∀ y ∈ xs, (xs.foldl pickLower x).id ≤ y.id := by
  intro xs
  induction xs with
  | nil => intro x; exact ⟨le_refl _, by simp⟩
  | cons z zs ih =>
    intro x
    rw [List.foldl_cons]
    have h := ih (pickLower x z)
    refine ⟨le_trans h.1 (pickLower_le_left x z), ?_⟩
    intro y hy
    rcases List.mem_cons.mp hy with h0 | h1
    · subst h0
      exact le_trans h.1 (pickLower_le_right x y)
    · exact h.2 y h1

theorem reduceLowest_eq_none {l : List Opt} : reduceLowest l = none ↔ l = [] := by
  cases l <;> simp [reduceLowest]

theorem reduceLowest_mem {l : List Opt} {lo : Opt} (h : reduceLowest l = some lo) :
    lo ∈ l := by
  cases l with
  | nil => simp [reduceLowest] at h
  | cons x xs =>
    simp only [reduceLowest, Option.some.injEq] at h
    subst h
    exact foldl_pickLower_mem xs x

theorem reduceLowest_le {l : List Opt} {lo : Opt} (h : reduceLowest l = some lo) :
    ∀ y ∈ l, lo.id ≤ y.id := by
  cases l with
  | nil => simp [reduceLowest] at h
  | cons x xs =>
    simp only [reduceLowest, Option.some.injEq] at h
    subst h
    intro y hy
    rcases List.mem_cons.mp hy with h0 | h1
    · subst h0
      exact (foldl_pickLower_le xs y).1
    · exact (foldl_pickLower_le xs x).2 y h1

/-! ### Lemmas about ballot normalization -/

theorem mem_insertByRank {r x : Ranking} : ∀ {l : List Ranking},
    x ∈ insertByRank r l ↔ x = r ∨ x ∈ l := by
  intro l
  induction l with
  | nil => simp [insertByRank]
  | cons y ys ih =>
    simp only [insertByRank]
    by_cases h : y.rank < r.rank
    · rw [if_pos h]
      simp only [List.mem_cons, ih]
      tauto
    · rw [if_neg h]
      simp only [List.mem_cons]

theorem mem_sortByRank {x : Ranking} : ∀ {l : List Ranking},
    x ∈ sortByRank l ↔ x ∈ l := by
  intro l
  induction l with
  | nil => simp [sortByRank]
  | cons y ys ih =>
    simp only [sortByRank, mem_insertByRank, List.mem_cons, ih]

theorem insertByRank_map {f : Ranking → Ranking} (hf : ∀ x, (f x).rank = x.rank)
    (r : Ranking) : ∀ (l : List Ranking),
    insertByRank (f r) (l.map f) = (insertByRank r l).map f := by
  intro l
  induction l with
  | nil => simp [insertByRank]
  | cons y ys ih =>
    simp only [List.map_cons, insertByRank, hf]
    by_cases h : y.rank < r.rank
    · rw [if_pos h, if_pos h, List.map_cons, ih]
    · rw [if_neg h, if_neg h]
      simp

theorem sortByRank_map {f : Ranking → Ranking} (hf : ∀ x, (f x).rank = x.rank) :
    ∀ (l : List Ranking), sortByRank (l.map f) = (sortByRank l).map f := by
  intro l
  induction l with
  | nil => simp [sortByRank]
  | cons y ys ih =>
    simp only [List.map_cons, sortByRank, ih]
    exact insertByRank_map hf y (sortByRank ys)

theorem normalizeBallot_congr {f : Ranking → Ranking} (hf : ∀ x, (f x).rank = x.rank)
    {b : Ballot} (h : ∀ r ∈ b.rankings, normalizeRanking (f r) = normalizeRanking r) :
    normalizeBallot (mapRankings f b) = normalizeBallot b := by
  unfold normalizeBallot mapRankings
  simp only
  congr 1
  rw [sortByRank_map hf, List.map_map]
  apply List.map_congr_left
  intro r hr
  exact h r (mem_sortByRank.mp hr)

/-! ### Lemmas about the round loop -/

theorem jsMin_attained {cnt : Nat → Nat} {l : List Opt} (hl : l ≠ []) :
    ∃ m ∈ l, cnt m.id = jsMin (List.map cnt (List.map (fun x => x.id) l)) := by
  have hmem : jsMin (List.map cnt (List.map (fun x => x.id) l))
      ∈ List.map cnt (List.map (fun x => x.id) l) := by
    cases l with
    | nil => exact absurd rfl hl
    | cons o os =>
      simp only [List.map_cons]
      exact jsMin_mem
  obtain ⟨i, hi, hieq⟩ := List.mem_map.mp hmem
  obtain ⟨m, hm, hmeq⟩ := List.mem_map.mp hi
  exact ⟨m, hm, by rw [hmeq, hieq]⟩

theorem filter_ne_id_length_lt {remaining : List Opt} {lo : Opt} (h : lo ∈ remaining) :
    (remaining.filter fun o => decide (o.id ≠ lo.id)).length < remaining.length := by
  apply List.length_filter_lt_length_iff_exists.mpr
  exact ⟨lo, h, by simp⟩

theorem multiElim_keeps {remaining : List Opt} {cnt : Nat → Nat} {minV : Nat} {o : Opt}
    (ho : o ∈ remaining) (hno : cnt o.id ≠ minV) :
    o ∈ remaining.filter fun x =>
      !decide (x.id ∈ (remaining.filter fun y => decide (cnt y.id = minV)).map (fun z => z.id)) := by
  rw [List.mem_filter]
  refine ⟨ho, ?_⟩
  simp only [Bool.not_eq_true', decide_eq_false_iff_not]
  intro hmem
  obtain ⟨m, hm, hmid⟩ := List.mem_map.mp hmem
  have hmv : cnt m.id = minV := by
    have := (List.mem_filter.mp hm).2
    simpa using this
  exact hno (hmid ▸ hmv)

theorem multiElim_length_lt {remaining : List Opt} {cnt : Nat → Nat} {minV : Nat} {m : Opt}
    (hm : m ∈ remaining) (hmv : cnt m.id = minV) :
    (remaining.filter fun x =>
      !decide (x.id ∈ (remaining.filter fun y => decide (cnt y.id = minV)).map (fun z => z.id))).length
      < remaining.length := by
  apply List.length_filter_lt_length_iff_exists.mpr
  refine ⟨m, hm, ?_⟩
  simp only [Bool.not_eq_true', decide_eq_false_iff_not, Decidable.not_not]
  exact List.mem_map.mpr ⟨m, List.mem_filter.mpr ⟨hm, by simp [hmv]⟩, rfl⟩

theorem nodup_ids_filter {remaining : List Opt} (p : Opt → Bool)
    (h : (remaining.map (fun x => x.id)).Nodup) :
    ((remaining.filter p).map (fun x => x.id)).Nodup :=
  (List.Sublist.map (fun x => x.id) (List.filter_sublist remaining)).nodup h

theorem irvLoop_ok (nbs : List NormBallot) (tv thr : Nat) :
    ∀ (fuel : Nat) (remaining : List Opt) (rounds : List Round),
      remaining.length < fuel →
      ∃ rds w t tos, irvLoop nbs tv thr fuel remaining rounds =
        { rounds := rds, winner := w, tie := t, tiedOptions := tos,
          totalVotes := some tv, majorityThreshold := some thr, error := none } := by
  intro fuel
  induction fuel with
  | zero =>
    intro remaining rounds h
    exact absurd h (Nat.not_lt_zero _)
  | succ fuel ih =>
    intro remaining rounds hlen
    rcases remaining with _ | ⟨o1, _ | ⟨o2, rest⟩⟩
    · exact ⟨rounds, none, false, none, by simp [irvLoop]⟩
    · exact ⟨rounds, some o1, false, none, by simp [irvLoop]⟩
    · simp only [irvLoop]
      split
      · exact ⟨_, _, _, _, rfl⟩
      · next hmw =>
        rcases rest with _ | ⟨o3, rest⟩
        · rw [if_pos (by simp)]
          split
          · exact ⟨_, _, _, _, rfl⟩
          · exact ⟨_, _, _, _, rfl⟩
        · rw [if_neg (by simp)]
          split
          · next hAS =>
            split
            · next hred =>
              exfalso
              rw [reduceLowest_eq_none] at hred
              have h1 : voteCount (List.map (fun x => x.id) (o1 :: o2 :: o3 :: rest)) nbs o1.id
                  = jsMin (List.map
                      (voteCount (List.map (fun x => x.id) (o1 :: o2 :: o3 :: rest)) nbs)
                      (List.map (fun x => x.id) (o1 :: o2 :: o3 :: rest))) := by
                have := List.all_eq_true.mp hAS.1
                have h2 := this (voteCount (List.map (fun x => x.id) (o1 :: o2 :: o3 :: rest)) nbs o1.id)
                  (List.mem_map.mpr ⟨o1.id,
                    List.mem_map.mpr ⟨o1, List.mem_cons_self _ _, rfl⟩, rfl⟩)
                simpa using h2
              have : o1 ∈ (List.filter
                  (fun o => decide (voteCount (List.map (fun x => x.id) (o1 :: o2 :: o3 :: rest)) nbs o.id =
                    jsMin (List.map (voteCount (List.map (fun x => x.id) (o1 :: o2 :: o3 :: rest)) nbs)
                      (List.map (fun x => x.id) (o1 :: o2 :: o3 :: rest)))))
                  (o1 :: o2 :: o3 :: rest)) :=
                List.mem_filter.mpr ⟨List.mem_cons_self _ _, decide_eq_true h1⟩
              rw [hred] at this
              cases this
            · next lo hred =>
              apply ih
              have hlo : lo ∈ (o1 :: o2 :: o3 :: rest) :=
                (List.mem_filter.mp (reduceLowest_mem hred)).1
              have h1 := filter_ne_id_length_lt hlo
              simp only [List.length_cons] at hlen h1 ⊢
              omega
          · next hAS =>
            split
            · next hdead =>
              exfalso
              have := hdead.1
              simp [List.length_cons] at this
            · next hdead =>
              have hnall : ¬ ((List.map
                  (voteCount (List.map (fun x => x.id) (o1 :: o2 :: o3 :: rest)) nbs)
                  (List.map (fun x => x.id) (o1 :: o2 :: o3 :: rest))).all
                    fun c => decide (c = jsMin (List.map
                      (voteCount (List.map (fun x => x.id) (o1 :: o2 :: o3 :: rest)) nbs)
                      (List.map (fun x => x.id) (o1 :: o2 :: o3 :: rest))))) = true := by
                intro hall
                exact hAS ⟨hall, by simp⟩
              split
              · next hemp =>
                exfalso
                rw [List.isEmpty_eq_true] at hemp
                simp only [List.all_eq_true, not_forall] at hnall
                obtain ⟨c, hc, hcne⟩ := hnall
                obtain ⟨i, hi, hieq⟩ := List.mem_map.mp hc
                obtain ⟨m, hmem, hmid⟩ := List.mem_map.mp hi
                have hne2 : voteCount (List.map (fun x => x.id) (o1 :: o2 :: o3 :: rest)) nbs m.id
                    ≠ jsMin (List.map (voteCount (List.map (fun x => x.id) (o1 :: o2 :: o3 :: rest)) nbs)
                      (List.map (fun x => x.id) (o1 :: o2 :: o3 :: rest))) := by
                  rw [hmid, hieq]
                  simpa using hcne
                have := multiElim_keeps hmem hne2
                rw [hemp] at this
                cases this
              · next hemp =>
                apply ih
                obtain ⟨m, hmem, hmv⟩ := @jsMin_attained
                  (voteCount (List.map (fun x => x.id) (o1 :: o2 :: o3 :: rest)) nbs)
                  (o1 :: o2 :: o3 :: rest) (by simp)
                have h1 := multiElim_length_lt hmem hmv
                simp only [List.length_cons] at hlen h1 ⊢
                omega

/-- Every round the loop appends carries the snapshot of its own remaining
set: its `remaining` field lists that set's ids, its `voteCounts` are the
per-id counts against that set, its `majorityWinner` can only be set with
more than two options remaining, and distinctness of ids is inherited. -/
theorem irvLoop_rounds_inv (nbs : List NormBallot) (tv thr : Nat) :
    ∀ (fuel : Nat) (remaining : List Opt) (rounds : List Round),
      ∀ r ∈ (irvLoop nbs tv thr fuel remaining rounds).rounds,
        r ∈ rounds ∨
        ∃ rem : List Opt,
          r.remaining = rem.map (fun x => x.id) ∧
          r.voteCounts = mkVoteCounts (rem.map (fun x => x.id))
            (voteCount (rem.map (fun x => x.id)) nbs) ∧
          (r.majorityWinner.isSome = true → 2 < rem.length) ∧
          ((remaining.map (fun x => x.id)).Nodup → (rem.map (fun x => x.id)).Nodup) := by
  intro fuel
  induction fuel with
  | zero =>
    intro remaining rounds r hr
    simp only [irvLoop] at hr
    exact Or.inl hr
  | succ fuel ih =>
    intro remaining rounds r hr
    rcases remaining with _ | ⟨o1, _ | ⟨o2, rest⟩⟩
    · simp only [irvLoop] at hr
      exact Or.inl hr
    · simp only [irvLoop] at hr
      exact Or.inl hr
    · simp only [irvLoop] at hr
      split at hr
      · next w heq =>
        simp only [List.mem_append, List.mem_singleton] at hr
        rcases hr with hr | hr
        · exact Or.inl hr
        · refine Or.inr ⟨o1 :: o2 :: rest, by rw [hr], by rw [hr], ?_, fun h => h⟩
          intro _
          by_cases h23 : 2 < (o1 :: o2 :: rest).length
          · exact h23
          · rw [if_neg h23] at heq
            cases heq
      · next hmw =>
        split at hr
        · next h2 =>
          split at hr
          · simp only [List.mem_append, List.mem_singleton] at hr
            rcases hr with hr | hr
            · exact Or.inl hr
            · refine Or.inr ⟨o1 :: o2 :: rest, by rw [hr], by rw [hr], ?_, fun h => h⟩
              rw [hr]
              intro hs
              simp at hs
          · simp only [List.mem_append, List.mem_singleton] at hr
            rcases hr with hr | hr
            · exact Or.inl hr
            · refine Or.inr ⟨o1 :: o2 :: rest, by rw [hr], by rw [hr], ?_, fun h => h⟩
              rw [hr]
              intro hs
              simp at hs
        · next h2 =>
          split at hr
          · next hAS =>
            split at hr
            · next hred =>
              exact Or.inl hr
            · next lo hred =>
              have := ih _ _ r hr
              rcases this with h | ⟨rem, ha, hb, hc, hd⟩
              · simp only [List.mem_append, List.mem_singleton] at h
                rcases h with h | h
                · exact Or.inl h
                · refine Or.inr ⟨o1 :: o2 :: rest, by rw [h], by rw [h], ?_, fun hh => hh⟩
                  rw [h]
                  intro hs
                  simp at hs
              · refine Or.inr ⟨rem, ha, hb, hc, ?_⟩
                intro hn
                exact hd (nodup_ids_filter _ hn)
          · next hAS =>
            split at hr
            · next hdead =>
              exact absurd hdead.1 h2
            · split at hr
              · next hemp =>
                simp only [List.mem_append, List.mem_singleton] at hr
                rcases hr with hr | hr
                · exact Or.inl hr
                · refine Or.inr ⟨o1 :: o2 :: rest, by rw [hr], by rw [hr], ?_, fun h => h⟩
                  rw [hr]
                  intro hs
                  simp at hs
              · next hemp =>
                have := ih _ _ r hr
                rcases this with h | ⟨rem, ha, hb, hc, hd⟩
                · simp only [List.mem_append, List.mem_singleton] at h
                  rcases h with h | h
                  · exact Or.inl h
                  · refine Or.inr ⟨o1 :: o2 :: rest, by rw [h], by rw [h], ?_, fun hh => hh⟩
                    rw [h]
                    intro hs
                    simp at hs
                · refine Or.inr ⟨rem, ha, hb, hc, ?_⟩
                  intro hn
                  exact hd (nodup_ids_filter _ hn)

/-- Whenever the loop declares a tie, the winner is absent, `tiedOptions`
is exactly the remaining set at the declaration point, the tie round is the
last recorded round, its `remaining` field lists those same options, and
all their recorded counts coincide. -/
theorem irvLoop_tie_inv (nbs : List NormBallot) (tv thr : Nat) :
    ∀ (fuel : Nat) (remaining : List Opt) (rounds : List Round) (res : TallyResult),
      irvLoop nbs tv thr fuel remaining rounds = res →
      res.tie = true →
      res.winner = none ∧
      ∃ ropts lastR,
        res.tiedOptions = some ropts ∧
        res.rounds.getLast? = some lastR ∧
        lastR.remaining = ropts.map (fun x => x.id) ∧
        lastR.tie = true ∧
        ∀ p ∈ lastR.voteCounts, ∀ q ∈ lastR.voteCounts, p.2 = q.2 := by
  intro fuel
  induction fuel with
  | zero =>
    intro remaining rounds res hres htie
    simp only [irvLoop] at hres
    subst hres
    simp at htie
  | succ fuel ih =>
    intro remaining rounds res hres htie
    rcases remaining with _ | ⟨o1, _ | ⟨o2, rest⟩⟩
    · simp only [irvLoop] at hres
      subst hres
      simp at htie
    · simp only [irvLoop] at hres
      subst hres
      simp at htie
    · simp only [irvLoop] at hres
      split at hres
      · subst hres
        simp at htie
      · next hmw =>
        split at hres
        · next h2 =>
          have hrest : rest = [] := by
            simp only [List.length_cons] at h2
            exact List.length_eq_zero.mp (by omega)
          subst hrest
          split at hres
          · next hc =>
            subst hres
            refine ⟨rfl, o1 :: o2 :: [], _, rfl, List.getLast?_concat _, rfl, rfl, ?_⟩
            intro p hp q hq
            simp only [mkVoteCounts, List.map_cons, List.map_nil, List.mem_cons,
              List.not_mem_nil, or_false] at hp hq
            simp only [List.map_cons, List.map_nil] at hc
            rcases hp with hp | hp <;> rcases hq with hq | hq <;>
              simp [hp, hq, hc]
          · subst hres
            simp at htie
        · next h2 =>
          split at hres
          · next hAS =>
            split at hres
            · subst hres
              simp at htie
            · exact ih _ _ _ hres htie
          · next hAS =>
            split at hres
            · next hdead =>
              exact absurd hdead.1 h2
            · split at hres
              · subst hres
                simp at htie
              · exact ih _ _ _ hres htie

/-- The loop reads the ballots only through per-option vote counts, so
reordering the ballot list leaves the loop's result unchanged. -/
theorem irvLoop_perm {nbs1 nbs2 : List NormBallot} (hperm : nbs1.Perm nbs2) (tv thr : Nat) :
    ∀ (fuel : Nat) (remaining : List Opt) (rounds : List Round),
      irvLoop nbs1 tv thr fuel remaining rounds = irvLoop nbs2 tv thr fuel remaining rounds := by
  intro fuel
  induction fuel with
  | zero =>
    intro remaining rounds
    rfl
  | succ fuel ih =>
    intro remaining rounds
    rcases remaining with _ | ⟨o1, _ | ⟨o2, rest⟩⟩
    · rfl
    · rfl
    · have hcnt : voteCount (List.map (fun x => x.id) (o1 :: o2 :: rest)) nbs1
          = voteCount (List.map (fun x => x.id) (o1 :: o2 :: rest)) nbs2 := by
        funext i
        exact List.Perm.countP_eq _ hperm
      simp only [irvLoop]
      rw [hcnt]
      split
      · rfl
      · split
        · split
          · rfl
          · rfl
        · split
          · split
            · rfl
            · exact ih _ _
          · split
            · rfl
            · split
              · rfl
              · exact ih _ _

/-- Ballot-order invariance at the level of `calculateIRV`. -/
theorem calculateIRV_ballots_perm (options : List Opt) {b1 b2 : List Ballot}
    (h : b1.Perm b2) : calculateIRV options b1 = calculateIRV options b2 := by
  unfold calculateIRV
  have hlen : b1.length = b2.length := h.length_eq
  have hperm2 : (b1.map normalizeBallot).Perm (b2.map normalizeBallot) := h.map _
  simp only [List.isEmpty_iff_length_eq_zero, List.length_map, hlen]
  split
  · rfl
  · split
    · rfl
    · exact irvLoop_perm hperm2 _ _ _ _ _

/-- The engine reads ballots only through their normalizations. -/
theorem calculateIRV_congr_normalize (options : List Opt) {b1 b2 : List Ballot}
    (h : b1.map normalizeBallot = b2.map normalizeBallot) :
    calculateIRV options b1 = calculateIRV options b2 := by
  have hlen : b1.length = b2.length := by
    have := congrArg List.length h
    simpa using this
  unfold calculateIRV
  simp only [List.isEmpty_iff_length_eq_zero, hlen, h]

/-- The round invariant transported to `calculateIRV`. -/
theorem calculateIRV_rounds_inv (options : List Opt) (ballots : List Ballot) :
    ∀ r ∈ (calculateIRV options ballots).rounds,
      ∃ rem : List Opt,
        r.remaining = rem.map (fun x => x.id) ∧
        r.voteCounts = mkVoteCounts (rem.map (fun x => x.id))
          (voteCount (rem.map (fun x => x.id)) (ballots.map normalizeBallot)) ∧
        (r.majorityWinner.isSome = true → 2 < rem.length) ∧
        ((options.map (fun x => x.id)).Nodup → (rem.map (fun x => x.id)).Nodup) := by
  intro r hr
  unfold calculateIRV at hr
  split at hr
  · simp at hr
  · split at hr
    · simp at hr
    · have := irvLoop_rounds_inv (ballots.map normalizeBallot)
        (ballots.map normalizeBallot).length ((ballots.map normalizeBallot).length / 2 + 1)
        ((options.map fun o => { id := o.id, text := o.text : Opt }).length + 1)
        (options.map fun o => { id := o.id, text := o.text : Opt }) [] r hr
      rcases this with h | ⟨rem, ha, hb, hc, hd⟩
      · cases h
      · refine ⟨rem, ha, hb, hc, ?_⟩
        intro hn
        apply hd
        rw [List.map_map]
        exact hn

theorem normalizeRanking_toNested {r : Ranking} (h1 : r.pollOption = none)
    (h2 : r.pollOptionId ≠ some 0) :
    normalizeRanking (toNestedRanking r) = normalizeRanking r := by
  unfold normalizeRanking toNestedRanking resolveRef
  simp only [h1]
  cases hid : r.pollOptionId with
  | none => rfl
  | some n =>
    have hn : n ≠ 0 := by
      intro h0
      exact h2 (by rw [hid, h0])
    simp [hn]

theorem normalizeRanking_toDirect {r : Ranking} (h1 : r.pollOptionId = none)
    (h2 : r.pollOption ≠ some 0) :
    normalizeRanking (toDirectRanking r) = normalizeRanking r := by
  unfold normalizeRanking toDirectRanking resolveRef
  simp only [h1]
  cases hid : r.pollOption with
  | none => rfl
  | some n =>
    have hn : n ≠ 0 := by
      intro h0
      exact h2 (by rw [hid, h0])
    simp [hn]

theorem sum_two_le {ids : List Nat} (f : Nat → Nat) (hnd : ids.Nodup) {i j : Nat}
    (hi : i ∈ ids) (hj : j ∈ ids) (hne : i ≠ j) :
    f i + f j ≤ (ids.map f).sum := by
  induction ids with
  | nil => cases hi
  | cons a l ih =>
    rw [List.nodup_cons] at hnd
    rw [List.map_cons, List.sum_cons]
    rcases List.mem_cons.mp hi with hia | hia
    · subst hia
      rcases List.mem_cons.mp hj with hja | hja
      · exact absurd hja.symm hne
      · have hj2 : f j ≤ (l.map f).sum :=
          List.single_le_sum (by simp) _ (List.mem_map.mpr ⟨j, hja, rfl⟩)
        omega
    · rcases List.mem_cons.mp hj with hja | hja
      · subst hja
        have hi2 : f i ≤ (l.map f).sum :=
          List.single_le_sum (by simp) _ (List.mem_map.mpr ⟨i, hia, rfl⟩)
        omega
      · have := ih hnd.2 hia hja
        omega

/-! ### Claim theorems -/

/-- C6: `calculateIRV` never returns the error "All options eliminated - no
winner". Every result's error field is either absent or one of the two
precondition errors, because whenever an elimination step runs, at least one
remaining option keeps a count strictly above the minimum and survives, so
the guard for zero remaining options after elimination is unreachable. -/
theorem error_only_from_preconditions (options : List Opt) (ballots : List Ballot) :
    (calculateIRV options ballots).error = none ∨
    (calculateIRV options ballots).error = some "No options available" ∨
    (calculateIRV options ballots).error = some "No ballots available" := by
  unfold calculateIRV
  split
  · right
    left
    rfl
  · split
    · right
      right
      rfl
    · left
      obtain ⟨rds, w, t, tos, heq⟩ := irvLoop_ok (ballots.map normalizeBallot)
        (ballots.map normalizeBallot).length ((ballots.map normalizeBallot).length / 2 + 1)
        ((options.map fun o => { id := o.id, text := o.text : Opt }).length + 1)
        (options.map fun o => { id := o.id, text := o.text : Opt }) []
        (Nat.lt_succ_self _)
      rw [heq]

/-- C7: for non-empty options and ballots, the returned `totalVotes` is the
number of ballots supplied and `majorityThreshold` is
`floor(totalVotes / 2) + 1`; both are fixed parameters of the round loop,
computed once before any round. -/
theorem totalVotes_and_threshold_fixed (options : List Opt) (ballots : List Ballot)
    (ho : options ≠ []) (hb : ballots ≠ []) :
    (calculateIRV options ballots).totalVotes = some ballots.length ∧
    (calculateIRV options ballots).majorityThreshold = some (ballots.length / 2 + 1) := by
  unfold calculateIRV
  split
  · next h => exact absurd (List.isEmpty_eq_true.mp h) ho
  · split
    · next h =>
      exact absurd (List.isEmpty_eq_true.mp (by simpa using h)) hb
    · obtain ⟨rds, w, t, tos, heq⟩ := irvLoop_ok (ballots.map normalizeBallot)
        (ballots.map normalizeBallot).length ((ballots.map normalizeBallot).length / 2 + 1)
        ((options.map fun o => { id := o.id, text := o.text : Opt }).length + 1)
        (options.map fun o => { id := o.id, text := o.text : Opt }) []
        (Nat.lt_succ_self _)
      rw [heq]
      constructor <;> simp [List.length_map]

/-- C4: in every round of a result from non-empty inputs with distinct
option ids, the recorded counts sum to at most the number of ballots, with
equality exactly when every ballot still has a ranked option in that
round's remaining set. -/
theorem voteCounts_sum_bounded (options : List Opt) (ballots : List Ballot)
    (hnd : (options.map fun x => x.id).Nodup)
    (_ho : options ≠ []) (_hb : ballots ≠ []) :
    ∀ r ∈ (calculateIRV options ballots).rounds,
      ((r.voteCounts.map fun p => p.2).sum ≤ ballots.length) ∧
      (((r.voteCounts.map fun p => p.2).sum = ballots.length) ↔
        ∀ b ∈ ballots, (firstPref r.remaining (normalizeBallot b).rankings).isSome = true) := by
  intro r hr
  obtain ⟨rem, ha, hbv, _, hd⟩ := calculateIRV_rounds_inv options ballots r hr
  have hnd2 : (rem.map fun x => x.id).Nodup := hd hnd
  have hsum : (r.voteCounts.map fun p => p.2).sum
      = ((rem.map fun x => x.id).map
          (voteCount (rem.map fun x => x.id) (ballots.map normalizeBallot))).sum := by
    rw [hbv]
    simp only [mkVoteCounts, List.map_map]
    rfl
  rw [hsum, sum_voteCount _ _ hnd2, ← ha]
  have hlen : (ballots.map normalizeBallot).length = ballots.length := List.length_map _ _
  constructor
  · exact hlen ▸ List.countP_le_length _
  · rw [← hlen, List.countP_eq_length]
    constructor
    · intro hall b hbmem
      exact hall (normalizeBallot b) (List.mem_map.mpr ⟨b, hbmem, rfl⟩)
    · intro hall nb hnbmem
      obtain ⟨b, hbm, rfl⟩ := List.mem_map.mp hnbmem
      exact hall b hbm

/-- C5: whenever the result carries `tie: true`, the winner is absent,
`tiedOptions` is the remaining set at the declaration point, the tie round
is the final recorded round, and all remaining options hold identical
counts there. -/
theorem tie_characterization (options : List Opt) (ballots : List Ballot)
    (ht : (calculateIRV options ballots).tie = true) :
    (calculateIRV options ballots).winner = none ∧
    ∃ ropts lastR,
      (calculateIRV options ballots).tiedOptions = some ropts ∧
      (calculateIRV options ballots).rounds.getLast? = some lastR ∧
      lastR.remaining = ropts.map (fun x => x.id) ∧
      lastR.tie = true ∧
      ∀ p ∈ lastR.voteCounts, ∀ q ∈ lastR.voteCounts, p.2 = q.2 := by
  have hcase : calculateIRV options ballots
      = irvLoop (ballots.map normalizeBallot) (ballots.map normalizeBallot).length
        ((ballots.map normalizeBallot).length / 2 + 1)
        ((options.map fun o => { id := o.id, text := o.text : Opt }).length + 1)
        (options.map fun o => { id := o.id, text := o.text : Opt }) []
      ∨ (calculateIRV options ballots).tie = false := by
    unfold calculateIRV
    split
    · right
      rfl
    · split
      · right
        rfl
      · left
        rfl
  rcases hcase with heq | hfalse
  · exact irvLoop_tie_inv _ _ _ _ _ _ _ heq.symm ht
  · rw [ht] at hfalse
    cases hfalse

/-- C10: at most one remaining option can reach the majority threshold,
because the remaining counts sum to at most the number of ballots while two
thresholds exceed it; hence a majority winner is unique and a first-match
scan over the remaining options picks the same option in any scan order. -/
theorem majority_winner_unique (nbs : List NormBallot) (remaining : List Opt)
    (hnd : (remaining.map fun x => x.id).Nodup) {o1 o2 : Opt}
    (h1 : o1 ∈ remaining) (h2 : o2 ∈ remaining)
    (hm1 : nbs.length / 2 + 1 ≤ voteCount (remaining.map fun x => x.id) nbs o1.id)
    (hm2 : nbs.length / 2 + 1 ≤ voteCount (remaining.map fun x => x.id) nbs o2.id) :
    o1 = o2 := by
  by_contra hne
  have hid : o1.id ≠ o2.id := fun he => hne (List.inj_on_of_nodup_map hnd h1 h2 he)
  have hb := sum_two_le (voteCount (remaining.map fun x => x.id) nbs) hnd
    (List.mem_map.mpr ⟨o1, h1, rfl⟩) (List.mem_map.mpr ⟨o2, h2, rfl⟩) hid
  have hs : ((remaining.map fun x => x.id).map
      (voteCount (remaining.map fun x => x.id) nbs)).sum ≤ nbs.length := by
    rw [sum_voteCount _ _ hnd]
    exact List.countP_le_length _
  omega

/-- C1: the majority check is evaluated only in rounds with more than two
remaining options (first conjunct: any recorded `majorityWinner` implies
more than two ids in that round's `remaining`); in a round with exactly two
remaining options and unequal counts the engine never sets
`majorityWinner`, records the lower-count option as eliminated, returns the
other option as the overall winner, and appends no further rounds (second
conjunct: the loop's exact result at such a state). -/
theorem majority_gated_two_option_decides :
    (∀ (options : List Opt) (ballots : List Ballot),
      ∀ r ∈ (calculateIRV options ballots).rounds,
        r.majorityWinner.isSome = true → 2 < r.remaining.length) ∧
    (∀ (nbs : List NormBallot) (tv thr fuel : Nat) (rounds : List Round) (o1 o2 : Opt),
      voteCount [o1.id, o2.id] nbs o1.id ≠ voteCount [o1.id, o2.id] nbs o2.id →
      irvLoop nbs tv thr (fuel + 1) [o1, o2] rounds =
        { rounds := rounds ++ [{
            round := rounds.length + 1
            voteCounts := mkVoteCounts [o1.id, o2.id] (voteCount [o1.id, o2.id] nbs)
            percentages := mkPercentages tv [o1.id, o2.id] (voteCount [o1.id, o2.id] nbs)
            eliminated := some (if voteCount [o1.id, o2.id] nbs o1.id
              < voteCount [o1.id, o2.id] nbs o2.id then o1 else o2)
            eliminatedMultiple := none
            remaining := [o1.id, o2.id]
            majorityWinner := none
            tie := false }]
          winner := some (if voteCount [o1.id, o2.id] nbs o1.id
            < voteCount [o1.id, o2.id] nbs o2.id then o2 else o1)
          tie := false
          tiedOptions := none
          totalVotes := some tv
          majorityThreshold := some thr
          error := none }) := by
  constructor
  · intro options ballots r hr hsome
    obtain ⟨rem, ha, _, hc, _⟩ := calculateIRV_rounds_inv options ballots r hr
    rw [ha, List.length_map]
    exact hc hsome
  · intro nbs tv thr fuel rounds o1 o2 hne
    have hid : o1.id ≠ o2.id := by
      intro he
      apply hne
      rw [he]
    simp only [irvLoop, List.map_cons, List.map_nil, List.length_cons, List.length_nil]
    norm_num
    by_cases hlt : voteCount [o1.id, o2.id] nbs o1.id < voteCount [o1.id, o2.id] nbs o2.id
    · rw [if_neg hne]
      simp [hlt, hlt.le]
    · rw [if_neg hne]
      simp only [hlt, if_false]
      rw [if_neg (by omega : ¬ voteCount [o1.id, o2.id] nbs o1.id
        ≤ voteCount [o1.id, o2.id] nbs o2.id)]
      rw [if_neg hid]

/-- C2: in a round with three or more remaining options all holding the
same count `c` below the majority threshold, the engine eliminates exactly
one option — one of minimal identifier among the (fully tied) remaining
set — records the round with that single elimination and no
`eliminatedMultiple`, and continues with the next round on the reduced
state rather than terminating with a tie. -/
theorem complete_tie_single_elimination (nbs : List NormBallot) (tv thr fuel : Nat)
    (rounds : List Round) (o1 o2 o3 : Opt) (rest : List Opt) (c : Nat)
    (hAll : ∀ o ∈ o1 :: o2 :: o3 :: rest,
      voteCount ((o1 :: o2 :: o3 :: rest).map fun x => x.id) nbs o.id = c)
    (hThr : c < thr) :
    ∃ lo, lo ∈ o1 :: o2 :: o3 :: rest ∧
      (∀ o ∈ o1 :: o2 :: o3 :: rest, lo.id ≤ o.id) ∧
      irvLoop nbs tv thr (fuel + 1) (o1 :: o2 :: o3 :: rest) rounds =
        irvLoop nbs tv thr fuel
          ((o1 :: o2 :: o3 :: rest).filter fun o => decide (o.id ≠ lo.id))
          (rounds ++ [{
            round := rounds.length + 1
            voteCounts := mkVoteCounts ((o1 :: o2 :: o3 :: rest).map fun x => x.id)
              (voteCount ((o1 :: o2 :: o3 :: rest).map fun x => x.id) nbs)
            percentages := mkPercentages tv ((o1 :: o2 :: o3 :: rest).map fun x => x.id)
              (voteCount ((o1 :: o2 :: o3 :: rest).map fun x => x.id) nbs)
            eliminated := some lo
            eliminatedMultiple := none
            remaining := (o1 :: o2 :: o3 :: rest).map fun x => x.id
            majorityWinner := none
            tie := false }]) := by
  have hminV : jsMin (List.map (voteCount (List.map (fun x => x.id) (o1 :: o2 :: o3 :: rest)) nbs)
      (List.map (fun x => x.id) (o1 :: o2 :: o3 :: rest))) = c := by
    obtain ⟨m, hm, hmv⟩ := @jsMin_attained
      (voteCount (List.map (fun x => x.id) (o1 :: o2 :: o3 :: rest)) nbs)
      (o1 :: o2 :: o3 :: rest) (by simp)
    rw [← hmv]
    exact hAll m hm
  have hfilter : List.filter (fun o =>
        decide (voteCount (List.map (fun x => x.id) (o1 :: o2 :: o3 :: rest)) nbs o.id =
          jsMin (List.map (voteCount (List.map (fun x => x.id) (o1 :: o2 :: o3 :: rest)) nbs)
            (List.map (fun x => x.id) (o1 :: o2 :: o3 :: rest)))))
      (o1 :: o2 :: o3 :: rest) = o1 :: o2 :: o3 :: rest := by
    apply List.filter_eq_self.mpr
    intro o ho
    apply decide_eq_true
    rw [hminV]
    exact hAll o ho
  refine ⟨(o2 :: o3 :: rest).foldl pickLower o1, foldl_pickLower_mem _ _, ?_, ?_⟩
  · intro o ho
    rcases List.mem_cons.mp ho with h | h
    · subst h
      exact (foldl_pickLower_le _ o).1
    · exact (foldl_pickLower_le _ o1).2 o h
  · simp only [irvLoop]
    split
    · next w heq =>
      exfalso
      rw [if_pos (by simp)] at heq
      have hw := List.find?_some heq
      have hwm := List.mem_of_find?_eq_some heq
      rw [decide_eq_true_eq, hAll w hwm] at hw
      omega
    · next hmw =>
      rw [if_neg (by simp)]
      rw [if_pos]
      · rw [hfilter]
        simp only [reduceLowest]
      · constructor
        · apply List.all_eq_true.mpr
          intro x hx
          apply decide_eq_true
          rw [hminV]
          obtain ⟨i, hi, hieq⟩ := List.mem_map.mp hx
          obtain ⟨m, hm, hmeq⟩ := List.mem_map.mp hi
          rw [← hieq, ← hmeq]
          exact hAll m hm
        · simp

/-- C3 counterexample: for Scenario C's input (3 options, 4 ballots with
first-choice counts A:2, B:1, C:1) the result records exactly one round —
there is no round 2 in which only A remains, because the loop exits without
appending a further round once a single option is left. -/
theorem scenarioC_no_round_two :
    (calculateIRV scOptions scBallots).rounds.map (fun r => r.round) = [1] := by
  decide

/-- C3 amended: round 1 eliminates both B and C simultaneously with
`eliminatedMultiple` of length 2, after which only A remains and A is the
overall winner; the result contains exactly that one round and no round 2
is appended for the final single-option state. -/
theorem scenarioC_single_round :
    (calculateIRV scOptions scBallots).rounds.length = 1 ∧
    ((calculateIRV scOptions scBallots).rounds.map fun r => r.eliminatedMultiple)
      = [some [⟨2, "B"⟩, ⟨3, "C"⟩]] ∧
    ((calculateIRV scOptions scBallots).rounds.map fun r => r.remaining) = [[1, 2, 3]] ∧
    (calculateIRV scOptions scBallots).winner = some ⟨1, "A"⟩ := by
  decide

/-- C8 counterexample: two invocations whose options lists are permutations
of each other and whose ballots are identical yield different `TallyResult`
values — the order of ids in each round's `remaining` list follows the
options order — so input reordering is not bit-identity preserving. -/
theorem options_permutation_changes_result :
    p8Options.Perm q8Options ∧
    calculateIRV p8Options w8Ballots ≠ calculateIRV q8Options w8Ballots := by
  decide

/-- C8 amended: with the options list fixed, reordering the ballots list
yields a bit-identical `TallyResult` (the engine reads ballots only through
order-insensitive counts); permuting the options list instead reorders each
round's `remaining` and `voteCounts` and is not bit-identity preserving. -/
theorem ballots_reordering_bit_identical (options : List Opt) (b1 b2 : List Ballot)
    (h : b1.Perm b2) : calculateIRV options b1 = calculateIRV options b2 :=
  calculateIRV_ballots_perm options h

theorem ballots_reordering_bit_identical_witness :
    w8Ballots.Perm w8BallotsSwapped ∧
    calculateIRV p8Options w8Ballots = calculateIRV p8Options w8BallotsSwapped :=
  ⟨by decide, ballots_reordering_bit_identical p8Options w8Ballots w8BallotsSwapped (by decide)⟩

/-- C9 counterexample: with an option id of 0, replacing a ranking's direct
reference by the nested form changes the result — the falsy nested id 0
falls back to the absent direct field, the ranking is skipped, and the
winner flips from option 0 to option 1. -/
theorem zero_id_representation_divergence :
    z9Nested = z9Direct.map (mapRankings toNestedRanking) ∧
    (calculateIRV z9Options z9Direct).winner = some ⟨0, "A"⟩ ∧
    (calculateIRV z9Options z9Nested).winner = some ⟨1, "B"⟩ ∧
    calculateIRV z9Options z9Direct ≠ calculateIRV z9Options z9Nested := by
  decide

/-- C9 amended: for rankings whose referenced identifiers are nonzero
(truthy), swapping every ranking between the direct and the nested
representation leaves the `TallyResult` identical: both forms normalize to
the same canonical (optionId, rank) pairs, sorted stably by ascending rank,
before the round loop begins. -/
theorem representation_swap_nonzero (options : List Opt) (ballots : List Ballot) :
    ((∀ b ∈ ballots, ∀ r ∈ b.rankings, r.pollOption = none ∧ r.pollOptionId ≠ some 0) →
      calculateIRV options (ballots.map (mapRankings toNestedRanking))
        = calculateIRV options ballots) ∧
    ((∀ b ∈ ballots, ∀ r ∈ b.rankings, r.pollOptionId = none ∧ r.pollOption ≠ some 0) →
      calculateIRV options (ballots.map (mapRankings toDirectRanking))
        = calculateIRV options ballots) := by
  constructor
  · intro hyp
    apply calculateIRV_congr_normalize
    rw [List.map_map]
    apply List.map_congr_left
    intro b hbmem
    exact @normalizeBallot_congr toNestedRanking (fun x => rfl) b
      (fun r hr => normalizeRanking_toNested (hyp b hbmem r hr).1 (hyp b hbmem r hr).2)
  · intro hyp
    apply calculateIRV_congr_normalize
    rw [List.map_map]
    apply List.map_congr_left
    intro b hbmem
    exact @normalizeBallot_congr toDirectRanking (fun x => rfl) b
      (fun r hr => normalizeRanking_toDirect (hyp b hbmem r hr).1 (hyp b hbmem r hr).2)

theorem representation_swap_nonzero_witness :
    calculateIRV p8Options (w8Ballots.map (mapRankings toNestedRanking))
      = calculateIRV p8Options w8Ballots ∧
    calculateIRV p8Options
        ((w8Ballots.map (mapRankings toNestedRanking)).map (mapRankings toDirectRanking))
      = calculateIRV p8Options (w8Ballots.map (mapRankings toNestedRanking)) :=
  ⟨(representation_swap_nonzero p8Options w8Ballots).1 (by decide),
   (representation_swap_nonzero p8Options (w8Ballots.map (mapRankings toNestedRanking))).2
     (by decide)⟩

theorem majority_gated_two_option_decides_witness :
    voteCount [1, 2] w1Nbs 1 ≠ voteCount [1, 2] w1Nbs 2 ∧
    irvLoop w1Nbs 3 2 (0 + 1) [⟨1, "A"⟩, ⟨2, "B"⟩] [] =
      { rounds := [{
          round := 1
          voteCounts := mkVoteCounts [1, 2] (voteCount [1, 2] w1Nbs)
          percentages := mkPercentages 3 [1, 2] (voteCount [1, 2] w1Nbs)
          eliminated := some ⟨2, "B"⟩
          eliminatedMultiple := none
          remaining := [1, 2]
          majorityWinner := none
          tie := false }]
        winner := some ⟨1, "A"⟩
        tie := false
        tiedOptions := none
        totalVotes := some 3
        majorityThreshold := some 2
        error := none } :=
  ⟨by decide,
    majority_gated_two_option_decides.2 w1Nbs 3 2 0 [] ⟨1, "A"⟩ ⟨2, "B"⟩ (by decide)⟩

theorem complete_tie_single_elimination_witness :
    (∀ o ∈ [(⟨1, "A"⟩ : Opt), ⟨2, "B"⟩, ⟨3, "C"⟩],
      voteCount ([(⟨1, "A"⟩ : Opt), ⟨2, "B"⟩, ⟨3, "C"⟩].map fun x => x.id) w2Nbs o.id = 1) ∧
    (∃ lo, lo ∈ [(⟨1, "A"⟩ : Opt), ⟨2, "B"⟩, ⟨3, "C"⟩] ∧
      (∀ o ∈ [(⟨1, "A"⟩ : Opt), ⟨2, "B"⟩, ⟨3, "C"⟩], lo.id ≤ o.id) ∧
      irvLoop w2Nbs 3 2 (3 + 1) [⟨1, "A"⟩, ⟨2, "B"⟩, ⟨3, "C"⟩] [] =
        irvLoop w2Nbs 3 2 3
          ([(⟨1, "A"⟩ : Opt), ⟨2, "B"⟩, ⟨3, "C"⟩].filter fun o => decide (o.id ≠ lo.id))
          ([] ++ [{
            round := List.length ([] : List Round) + 1
            voteCounts := mkVoteCounts ([(⟨1, "A"⟩ : Opt), ⟨2, "B"⟩, ⟨3, "C"⟩].map fun x => x.id)
              (voteCount ([(⟨1, "A"⟩ : Opt), ⟨2, "B"⟩, ⟨3, "C"⟩].map fun x => x.id) w2Nbs)
            percentages := mkPercentages 3 ([(⟨1, "A"⟩ : Opt), ⟨2, "B"⟩, ⟨3, "C"⟩].map fun x => x.id)
              (voteCount ([(⟨1, "A"⟩ : Opt), ⟨2, "B"⟩, ⟨3, "C"⟩].map fun x => x.id) w2Nbs)
            eliminated := some lo
            eliminatedMultiple := none
            remaining := [(⟨1, "A"⟩ : Opt), ⟨2, "B"⟩, ⟨3, "C"⟩].map fun x => x.id
            majorityWinner := none
            tie := false }])) :=
  ⟨by decide,
    complete_tie_single_elimination w2Nbs 3 2 3 [] ⟨1, "A"⟩ ⟨2, "B"⟩ ⟨3, "C"⟩ [] 1
      (by decide) (by decide)⟩

theorem voteCounts_sum_bounded_witness :
    (scOptions.map fun x => x.id).Nodup ∧ scOptions ≠ [] ∧ scBallots ≠ [] ∧
    ∀ r ∈ (calculateIRV scOptions scBallots).rounds,
      ((r.voteCounts.map fun p => p.2).sum ≤ scBallots.length) ∧
      (((r.voteCounts.map fun p => p.2).sum = scBallots.length) ↔
        ∀ b ∈ scBallots, (firstPref r.remaining (normalizeBallot b).rankings).isSome = true) :=
  ⟨by decide, by decide, by decide,
    voteCounts_sum_bounded scOptions scBallots (by decide) (by decide) (by decide)⟩

theorem tie_characterization_witness :
    (calculateIRV t5Options t5Ballots).tie = true ∧
    ((calculateIRV t5Options t5Ballots).winner = none ∧
    ∃ ropts lastR,
      (calculateIRV t5Options t5Ballots).tiedOptions = some ropts ∧
      (calculateIRV t5Options t5Ballots).rounds.getLast? = some lastR ∧
      lastR.remaining = ropts.map (fun x => x.id) ∧
      lastR.tie = true ∧
      ∀ p ∈ lastR.voteCounts, ∀ q ∈ lastR.voteCounts, p.2 = q.2) :=
  ⟨by decide, tie_characterization t5Options t5Ballots (by decide)⟩

theorem totalVotes_and_threshold_fixed_witness :
    scOptions ≠ [] ∧ scBallots ≠ [] ∧
    ((calculateIRV scOptions scBallots).totalVotes = some scBallots.length ∧
     (calculateIRV scOptions scBallots).majorityThreshold = some (scBallots.length / 2 + 1)) :=
  ⟨by decide, by decide,
    totalVotes_and_threshold_fixed scOptions scBallots (by decide) (by decide)⟩

theorem majority_winner_unique_witness :
    (w10Nbs.length / 2 + 1 ≤ voteCount (w2Options.map fun x => x.id) w10Nbs (⟨1, "A"⟩ : Opt).id) ∧
    (⟨1, "A"⟩ : Opt) = ⟨1, "A"⟩ :=
  ⟨by decide,
    majority_winner_unique w10Nbs w2Options (by decide) (by decide) (by decide)
      (by decide) (by decide)⟩

end RcvPolls
